import Mathlib

/-! Verification development for the node core.

Shallow embedding of

* `cs::BitHeap<T, BitSize>` (`csnode/include/csnode/BitHeap.hpp`),
* `cs::PoolSynchronizer::NeighboursSetElemet` (`csnode/include/csnode/poolsynchronizer.hpp`),

followed by the theorems that settle the specification claims about them.

Conventions.  A value of the unsigned type `T` is a natural number; where the
source can wrap (the subtraction of `minMaxRange`) the reduction modulo a
power of two is written out.  `std::bitset<BitSize>` is a natural number whose
binary digits are the bits, bit `i` being `Nat.testBit _ i`.
`std::vector<cs::Sequence>` is a `List Nat`, an iterator into it is an index.
-/

namespace cs

/-! ## BitHeap -/

/-- The three data members of `cs::BitHeap<T, BitSize>`. -/
structure BitHeap where
  /-- Member `T greatest_`. -/
  greatest_ : Nat
  /-- Member `uint8_t isValueSet_`. -/
  isValueSet_ : Bool
  /-- Member `std::bitset<BitSize> bits_`. -/
  bits_ : Nat
deriving DecidableEq, Repr

namespace BitHeap

/-- The value `std::numeric_limits<T>::max()` of an unsigned `T` of `tbits` bits. -/
def numericLimitsMax (tbits : Nat) : Nat := 2 ^ tbits - 1

/-- The constructor `BitHeap()`: `greatest_` is the maximum of `T`, no value is set,
the bitset is all zero. -/
def new (tbits : Nat) : BitHeap :=
  { greatest_ := numericLimitsMax tbits, isValueSet_ := false, bits_ := 0 }

/-- The operation `bits_ <<= shift` of `std::bitset<BitSize>`: a shift by `BitSize` or more
clears the set, a smaller one shifts and drops the bits that leave the set. -/
def bitsetShl (BitSize bits shift : Nat) : Nat :=
  if shift < BitSize then (bits <<< shift) % 2 ^ BitSize else 0

/-- The operation `bits_.set(ind)`, called only with `ind < BitSize`. -/
def bitsetSet (bits ind : Nat) : Nat := bits ||| 2 ^ ind

/-- The operation `bits_.count()`: the number of bits set. -/
def bitsetCount (BitSize bits : Nat) : Nat :=
  ((List.range BitSize).filter (fun i => bits.testBit i)).length

/-- The method `void push(T val)`. -/
def push (BitSize : Nat) (h : BitHeap) (val : Nat) : BitHeap :=
  if !h.isValueSet_ then
    { h with greatest_ := val, isValueSet_ := true }
  else if val > h.greatest_ then
    let shift := val - h.greatest_
    let shifted := bitsetShl BitSize h.bits_ shift
    let ind := shift - 1
    { h with
      greatest_ := val
      bits_ := if ind < BitSize then bitsetSet shifted ind else shifted }
  else if val < h.greatest_ then
    let ind := h.greatest_ - val - 1
    if ind < BitSize then { h with bits_ := bitsetSet h.bits_ ind } else h
  else h

/-- The method `bool empty() const`. -/
def empty (h : BitHeap) : Bool := !h.isValueSet_

/-- Subtraction of unsigned integers of `w` bits: the result modulo `2 ^ w`. -/
def wrapSub (w a b : Nat) : Nat := (a % 2 ^ w + (2 ^ w - b % 2 ^ w)) % 2 ^ w

/-- The method `MinMaxRange minMaxRange() const`.  `BitSize` is a `size_t` (64 bits), so
`greatest_ - BitSize` is computed in `size_t` and converted to `T` (of `tbits` bits)
when the pair is built. -/
def minMaxRange (tbits BitSize : Nat) (h : BitHeap) : Nat × Nat :=
  (wrapSub 64 h.greatest_ BitSize % 2 ^ tbits, h.greatest_)

/-- The method `bool contains(T val) const`. -/
def contains (BitSize : Nat) (h : BitHeap) (val : Nat) : Bool :=
  if val > h.greatest_ then false
  else if val = h.greatest_ then true
  else
    let ind := h.greatest_ - val - 1
    if ind < BitSize then h.bits_.testBit ind else false

/-- The method `size_t count() const`. -/
def count (BitSize : Nat) (h : BitHeap) : Nat :=
  if h.empty then 0 else 1 + bitsetCount BitSize h.bits_

/-- A sequence of `push` calls, in order, on a newly constructed heap. -/
def pushAll (tbits BitSize : Nat) (vals : List Nat) : BitHeap :=
  vals.foldl (push BitSize) (new tbits)

/-- The relation a heap keeps with the list `S` of the values pushed into it: a value is
set, `greatest_` is the largest element of `S`, and bit `i` of the window is set exactly
when the value `greatest_ - 1 - i` is in `S`. -/
def Tracks (BitSize : Nat) (h : BitHeap) (S : List Nat) : Prop :=
  h.isValueSet_ = true ∧ h.greatest_ ∈ S ∧ (∀ v ∈ S, v ≤ h.greatest_) ∧
    ∀ i, i < BitSize → (h.bits_.testBit i = true ↔ ∃ v ∈ S, v + i + 1 = h.greatest_)

end BitHeap

/-! ## PoolSynchronizer::NeighboursSetElemet -/

/-- The enumeration `PoolSynchronizer::SequenceRemovalAccuracy`. -/
inductive SequenceRemovalAccuracy where
  | EXACT
  | LOWER_BOUND
  | UPPER_BOUND
deriving DecidableEq, Repr

/-- The algorithm `std::find(first, last, value)` over a whole vector: the index of the first
element equal to `value`, the length of the vector (`end()`) when there is none. -/
def stdFind : List Nat → Nat → Nat
  | [], _ => 0
  | x :: xs, value => if x = value then 0 else stdFind xs value + 1

/-- The loop of `std::upper_bound`: `first` and `count` are its two variables; each turn
probes the element `step = count / 2` places after `first`.  The first argument bounds the
number of turns. -/
def upperBoundLoop (v : List Nat) (value : Nat) : Nat → Nat → Nat → Nat
  | 0, first, _ => first
  | fuel + 1, first, count =>
    if count > 0 then
      let step := count / 2
      let it := first + step
      if !(value < v.getD it 0) then
        upperBoundLoop v value fuel (it + 1) (count - (step + 1))
      else
        upperBoundLoop v value fuel first step
    else first

/-- The algorithm `std::upper_bound(begin, end, value)` over a whole vector, as an index.
`count` starts at the length and shrinks every turn, so the length is enough turns. -/
def stdUpperBound (v : List Nat) (value : Nat) : Nat :=
  upperBoundLoop v value v.length 0 v.length

/-- The loop of `std::lower_bound`, as `upperBoundLoop` with the test `*it < value`. -/
def lowerBoundLoop (v : List Nat) (value : Nat) : Nat → Nat → Nat → Nat
  | 0, first, _ => first
  | fuel + 1, first, count =>
    if count > 0 then
      let step := count / 2
      let it := first + step
      if v.getD it 0 < value then
        lowerBoundLoop v value fuel (it + 1) (count - (step + 1))
      else
        lowerBoundLoop v value fuel first step
    else first

/-- The algorithm `std::lower_bound(begin, end, value)` over a whole vector, as an index. -/
def stdLowerBound (v : List Nat) (value : Nat) : Nat :=
  lowerBoundLoop v value v.length 0 v.length

/-- The common shape of the two binary-search loops, over the test `p` that sends the
search to the right half; used to reason about both at once. -/
def bisectLoop (v : List Nat) (p : Nat → Bool) : Nat → Nat → Nat → Nat
  | 0, first, _ => first
  | fuel + 1, first, count =>
    if count > 0 then
      if p (v.getD (first + count / 2) 0) then
        bisectLoop v p fuel (first + count / 2 + 1) (count - (count / 2 + 1))
      else
        bisectLoop v p fuel first (count / 2)
    else first

/-- The call `vector::erase(first, last)` with iterators as indices. -/
def eraseRange (v : List Nat) (first last : Nat) : List Nat :=
  v.take first ++ v.drop last

/-- The data members of `PoolSynchronizer::NeighboursSetElemet`; a `cs::PublicKey` is its
bytes, `PoolsRequestedSequences` is a `std::vector<cs::Sequence>`. -/
structure NeighboursSetElemet where
  /-- Member `cs::Sequence maxSequence_ = 0`. -/
  maxSequence_ : Nat := 0
  /-- Member `cs::PublicKey key_`. -/
  key_ : List Nat := []
  /-- Member `PoolsRequestedSequences sequences_`. -/
  sequences_ : List Nat := []
deriving DecidableEq, Repr

namespace NeighboursSetElemet

/-- The method `bool removeSequnce(sequence, accuracy)`: the returned flag and the element
after the call. -/
def removeSequnce (e : NeighboursSetElemet) (sequence : Nat)
    (accuracy : SequenceRemovalAccuracy) : Bool × NeighboursSetElemet :=
  if e.sequences_.isEmpty then (false, e)
  else
    match accuracy with
    | .EXACT =>
      let it := stdFind e.sequences_ sequence
      if it ≠ e.sequences_.length then
        (true, { e with sequences_ := e.sequences_.eraseIdx it })
      else (false, e)
    | .LOWER_BOUND =>
      let it := stdUpperBound e.sequences_ sequence
      if it ≠ 0 then
        (true, { e with sequences_ := eraseRange e.sequences_ 0 it })
      else (false, e)
    | .UPPER_BOUND =>
      let it := stdLowerBound e.sequences_ sequence
      if it ≠ e.sequences_.length then
        (true, { e with sequences_ := eraseRange e.sequences_ it e.sequences_.length })
      else (false, e)

/-- The method `void resetSequences()`. -/
def resetSequences (e : NeighboursSetElemet) : NeighboursSetElemet :=
  { e with sequences_ := [] }

/-- An argument of type `const PoolsRequestedSequences&` as a method of an element sees it:
the vector referred to is the element's own member `sequences_` (as in
`e.setSequences(e.sequences())`), or another vector with the given content. -/
inductive SequencesRef where
  | own
  | other (sequences : List Nat)
deriving DecidableEq, Repr

/-- The content of the vector a reference refers to, read while the element is `e`. -/
def SequencesRef.read (e : NeighboursSetElemet) : SequencesRef → List Nat
  | .own => e.sequences_
  | .other sequences => sequences

/-- The method `void setSequences(const PoolsRequestedSequences& sequences)`: first
`resetSequences()`, then the assignment `sequences_ = sequences`, which reads the argument
after the member was cleared. -/
def setSequences (e : NeighboursSetElemet) (sequences : SequencesRef) : NeighboursSetElemet :=
  let cleared := e.resetSequences
  { cleared with sequences_ := sequences.read cleared }

/-- The method `void addSequences(sequence)`: a `push_back`. -/
def addSequences (e : NeighboursSetElemet) (sequence : Nat) : NeighboursSetElemet :=
  { e with sequences_ := e.sequences_ ++ [sequence] }

/-- The method `void reset()`. -/
def reset (e : NeighboursSetElemet) : NeighboursSetElemet := e.resetSequences

/-- The method `void setMaxSequence(sequence)`. -/
def setMaxSequence (e : NeighboursSetElemet) (sequence : Nat) : NeighboursSetElemet :=
  { e with maxSequence_ := sequence }

/-- The accessor `sequences()`. -/
def sequences (e : NeighboursSetElemet) : List Nat := e.sequences_

/-- The accessor `maxSequence()`. -/
def maxSequence (e : NeighboursSetElemet) : Nat := e.maxSequence_

/-- The comparison `operator<`. -/
def lt (e other : NeighboursSetElemet) : Bool := decide (e.maxSequence_ < other.maxSequence_)

/-- The comparison `operator>`. -/
def gt (e other : NeighboursSetElemet) : Bool := !(e.lt other)

/-- The comparison `operator==`. -/
def eq (e other : NeighboursSetElemet) : Bool := decide (e.key_ = other.key_)

/-- The comparison `operator!=`. -/
def ne (e other : NeighboursSetElemet) : Bool := !(e.eq other)

end NeighboursSetElemet

end cs

/-! ## RunAfterEx -/

/-- The enumeration `LaunchScheme`. -/
inductive LaunchScheme where
  | single
  | periodic
deriving DecidableEq, Repr

/-- The data members of `RunAfterEx` that the scheduling logic reads and writes, and two
counters that record what the object does to the outside: the worker threads it starts and
the procedures it hands to the calls queue. -/
structure RunAfterEx where
  /-- Member `std::atomic_bool _launched{ false }`. -/
  _launched : Bool := false
  /-- Member `int _remains = 0`. -/
  _remains : Int := 0
  /-- The number of worker threads started by `Schedule` so far. -/
  workers : Nat := 0
  /-- The number of calls of `ExecuteProc` so far. -/
  executed : Nat := 0
deriving DecidableEq, Repr

namespace RunAfterEx

/-- The part of `Schedule(wait_for, scheme, args...)` that runs in the calling thread: the
rejection when already launched, else the launch count of the scheme and the start of a
worker.  The delay `wait_for` only sets how long the worker sleeps. -/
def Schedule (s : RunAfterEx) (scheme : LaunchScheme) : RunAfterEx :=
  if s._launched then s
  else
    { s with
      _launched := true
      _remains := match scheme with
        | .single => 1
        | .periodic => -1
      workers := s.workers + 1 }

/-- The method `void CancelAfter(int count_calls)`. -/
def CancelAfter (s : RunAfterEx) (count_calls : Int) : RunAfterEx :=
  if count_calls < 0 ∨ (s._remains > 0 ∧ s._remains ≤ count_calls) then s
  else { s with _remains := count_calls }

/-- The method `void Cancel()`. -/
def Cancel (s : RunAfterEx) : RunAfterEx := { s with _remains := 0 }

/-- The method `bool IsScheduled() const`. -/
def IsScheduled (s : RunAfterEx) : Bool := s._launched

/-- The method `void ExecuteProc(proc, args...)`: one more procedure in the calls queue. -/
def ExecuteProc (s : RunAfterEx) : RunAfterEx := { s with executed := s.executed + 1 }

/-- The method `bool HandleStopCondition()`: the returned flag and the object after it. -/
def HandleStopCondition (s : RunAfterEx) : Bool × RunAfterEx :=
  let s1 := if s._remains > 0 then { s with _remains := s._remains - 1 } else s
  if s1._remains = 0 then (true, s1) else (false, s1)

/-- The rest of a turn of the worker loop from the call of `ExecuteProc` on: the call, then
the second `HandleStopCondition`; the flag tells whether the loop was left. -/
def workerTurnFromExecute (s : RunAfterEx) : Bool × RunAfterEx :=
  HandleStopCondition (ExecuteProc s)

/-- One turn of the `do { ... } while (true)` of the worker, from a wake-up to the next
sleep or to the `break`; the flag tells whether the loop was left. -/
def workerTurn (s : RunAfterEx) : Bool × RunAfterEx :=
  let r := HandleStopCondition s
  if r.1 then r else workerTurnFromExecute r.2

/-- The worker thread from a wake-up on, for at most `fuel` turns with no call from another
thread in between.  The flag tells whether the loop has ended within these turns; when it
has, the worker has cleared `_launched`. -/
def workerRun : Nat → RunAfterEx → Bool × RunAfterEx
  | 0, s => (false, s)
  | fuel + 1, s =>
    let r := workerTurn s
    if r.1 then (true, { r.2 with _launched := false }) else workerRun fuel r.2

end RunAfterEx

/-! ## csconnector::connector -/

namespace csconnector

/-- The member `stop_flag` of `csconnector::connector`, the only one that `run()` and
`stop()` read or write besides the servers and their threads. -/
structure connector where
  /-- Member `stop_flag`. -/
  stop_flag : Bool
deriving DecidableEq, Repr

namespace connector

/-- The constructor, which initialises `stop_flag(false)`. -/
def new : connector := { stop_flag := false }

/-- The first statement of `run()`, the expression statement `stop_flag - false;`: both
operands are promoted to `int` and subtracted, the value is discarded and no member is
written.  The result is that value and the object after the statement. -/
def runFirstStatement (c : connector) : Int × connector :=
  ((if c.stop_flag then 1 else 0) - (if false then 1 else 0), c)

/-- The assignment `stop_flag = true` of `stop()`. -/
def stop (c : connector) : connector := { c with stop_flag := true }

end connector

end csconnector

/-! ## std::hash<cs::TransactionsPacketHash> -/

namespace cs.TransactionsPacketHash

/-- One turn of the loop of `operator()`: `hash = (hash ^ data[i]) * p` with `p = 16777619`,
in `std::size_t` (64 bits). -/
def hashStep (hash byte : Nat) : Nat := ((hash ^^^ byte) * 16777619) % 2 ^ 64

/-- The statement `hash += hash << k` in `std::size_t`. -/
def addShl (k hash : Nat) : Nat := (hash + (hash <<< k) % 2 ^ 64) % 2 ^ 64

/-- The statement `hash ^= hash >> k` in `std::size_t`. -/
def xorShr (k hash : Nat) : Nat := hash ^^^ (hash >>> k)

/-- The five statements after the loop of `operator()`. -/
def hashFinal (hash : Nat) : Nat :=
  addShl 5 (xorShr 17 (addShl 3 (xorShr 7 (addShl 13 hash))))

/-- The function `std::hash<cs::TransactionsPacketHash>::operator()` on the bytes
`data = packetHash.toBinary()`: the loop from `hash = 2166136261`, then the final
statements. -/
def stdHash (data : List Nat) : Nat :=
  hashFinal (data.foldl hashStep 2166136261)

end cs.TransactionsPacketHash

/-! ## Lemmas on BitHeap -/

namespace cs.BitHeap

theorem testBit_bitsetSet (bits ind i : Nat) :
    (bitsetSet bits ind).testBit i = (bits.testBit i || decide (ind = i)) := by
  simp [bitsetSet, Nat.testBit_or, Nat.testBit_two_pow]

theorem testBit_bitsetShl (BitSize bits shift i : Nat) (hi : i < BitSize) :
    (bitsetShl BitSize bits shift).testBit i
      = (decide (shift ≤ i) && bits.testBit (i - shift)) := by
  unfold bitsetShl
  split
  · simp [Nat.testBit_mod_two_pow, Nat.testBit_shiftLeft, hi]
  · have : ¬ shift ≤ i := by omega
    simp [this]

theorem tracks_push_new (tbits BitSize v : Nat) :
    Tracks BitSize (push BitSize (new tbits) v) [v] := by
  refine ⟨rfl, by simp [push, new], by simp [push, new], ?_⟩
  intro i _
  simp [push, new]
  omega

theorem tracks_push (BitSize : Nat) (h : BitHeap) (S : List Nat) (v : Nat)
    (hT : Tracks BitSize h S) : Tracks BitSize (push BitSize h v) (S ++ [v]) := by
  obtain ⟨hset, hmem, hmax, hbits⟩ := hT
  unfold push
  simp only [hset, Bool.not_true, Bool.false_eq_true, if_false]
  by_cases h1 : v > h.greatest_
  · simp only [h1, if_true]
    refine ⟨rfl, by simp, ?_, ?_⟩
    · intro u hu
      rcases List.mem_append.1 hu with hu | hu
      · have := hmax u hu; simp only; omega
      · simp at hu; simp [hu]
    · intro i hi
      simp only
      have key : (∃ u ∈ S ++ [v], u + i + 1 = v) ↔
          ((v - h.greatest_ ≤ i ∧ h.bits_.testBit (i - (v - h.greatest_)) = true)
            ∨ v - h.greatest_ - 1 = i) := by
        constructor
        · rintro ⟨u, hu, hui⟩
          rcases List.mem_append.1 hu with hu | hu
          · have hle := hmax u hu
            by_cases hug : u = h.greatest_
            · right; omega
            · left
              refine ⟨by omega, ?_⟩
              exact (hbits _ (by omega)).2 ⟨u, hu, by omega⟩
          · simp at hu; omega
        · rintro (⟨hle, hb⟩ | hi')
          · obtain ⟨u, hu, hui⟩ := (hbits _ (by omega)).1 hb
            exact ⟨u, List.mem_append_left _ hu, by omega⟩
          · exact ⟨h.greatest_, List.mem_append_left _ hmem, by omega⟩
      rw [key]
      split
      · rw [testBit_bitsetSet, testBit_bitsetShl _ _ _ _ hi]
        simp
      · rw [testBit_bitsetShl _ _ _ _ hi]
        simp
        omega
  · simp only [h1, if_false]
    by_cases h2 : v < h.greatest_
    · simp only [h2, if_true]
      have key : ∀ i, (∃ u ∈ S ++ [v], u + i + 1 = h.greatest_) ↔
          (h.greatest_ - v - 1 = i ∨ ∃ u ∈ S, u + i + 1 = h.greatest_) := by
        intro i
        constructor
        · rintro ⟨u, hu, hui⟩
          rcases List.mem_append.1 hu with hu | hu
          · exact Or.inr ⟨u, hu, hui⟩
          · simp at hu; left; omega
        · rintro (hi' | ⟨u, hu, hui⟩)
          · exact ⟨v, by simp, by omega⟩
          · exact ⟨u, List.mem_append_left _ hu, hui⟩
      split
      · refine ⟨rfl, List.mem_append_left _ hmem, ?_, ?_⟩
        · intro u hu
          rcases List.mem_append.1 hu with hu | hu
          · exact hmax u hu
          · simp at hu; simp only; omega
        · intro i hi
          simp only
          rw [key, testBit_bitsetSet, ← hbits i hi]
          simp [or_comm]
      · refine ⟨hset, List.mem_append_left _ hmem, ?_, ?_⟩
        · intro u hu
          rcases List.mem_append.1 hu with hu | hu
          · exact hmax u hu
          · simp at hu; omega
        · intro i hi
          rw [key, hbits i hi]
          constructor
          · exact Or.inr
          · rintro (hi' | hh)
            · omega
            · exact hh
    · simp only [h2, if_false]
      have hv : v = h.greatest_ := by omega
      refine ⟨hset, List.mem_append_left _ hmem, ?_, ?_⟩
      · intro u hu
        rcases List.mem_append.1 hu with hu | hu
        · exact hmax u hu
        · simp at hu; omega
      · intro i hi
        rw [hbits i hi]
        constructor
        · rintro ⟨u, hu, hui⟩
          exact ⟨u, List.mem_append_left _ hu, hui⟩
        · rintro ⟨u, hu, hui⟩
          rcases List.mem_append.1 hu with hu | hu
          · exact ⟨u, hu, hui⟩
          · simp at hu; omega

theorem tracks_foldl (BitSize : Nat) (l : List Nat) :
    ∀ (h : BitHeap) (S : List Nat), Tracks BitSize h S →
      Tracks BitSize (l.foldl (push BitSize) h) (S ++ l) := by
  induction l with
  | nil => intro h S hT; simpa using hT
  | cons a l ih =>
    intro h S hT
    have := ih (push BitSize h a) (S ++ [a]) (tracks_push BitSize h S a hT)
    simpa using this

theorem tracks_pushAll (tbits BitSize : Nat) (vals : List Nat) (hne : vals ≠ []) :
    Tracks BitSize (pushAll tbits BitSize vals) vals := by
  cases vals with
  | nil => exact absurd rfl hne
  | cons a l =>
    have := tracks_foldl BitSize l _ _ (tracks_push_new tbits BitSize a)
    simpa [pushAll] using this

theorem contains_iff_of_tracks (BitSize : Nat) (h : BitHeap) (S : List Nat) (v : Nat)
    (hT : Tracks BitSize h S) :
    contains BitSize h v = true ↔ v ∈ S ∧ h.greatest_ ≤ v + BitSize := by
  obtain ⟨_, hmem, hmax, hbits⟩ := hT
  unfold contains
  by_cases h1 : v > h.greatest_
  · simp only [h1, if_true, Bool.false_eq_true, false_iff]
    rintro ⟨hv, _⟩
    have := hmax v hv
    omega
  · simp only [h1, if_false]
    by_cases h2 : v = h.greatest_
    · simp only [h2, if_true, true_iff]
      exact ⟨hmem, by omega⟩
    · simp only [h2, if_false]
      by_cases h3 : h.greatest_ - v - 1 < BitSize
      · simp only [h3, if_true]
        rw [hbits _ h3]
        constructor
        · rintro ⟨u, hu, hui⟩
          have : u = v := by omega
          exact ⟨this ▸ hu, by omega⟩
        · rintro ⟨hv, _⟩
          exact ⟨v, hv, by omega⟩
      · simp only [h3, if_false, Bool.false_eq_true, false_iff]
        rintro ⟨_, hle⟩
        omega

/-- The greatest value pushed is the anchor of the heap. -/
theorem greatest_pushAll (tbits BitSize : Nat) (vals : List Nat) (g : Nat)
    (hg : g ∈ vals) (hmax : ∀ u ∈ vals, u ≤ g) :
    (pushAll tbits BitSize vals).greatest_ = g := by
  have hT := tracks_pushAll tbits BitSize vals (List.ne_nil_of_mem hg)
  have h1 := hmax _ hT.2.1
  have h2 := hT.2.2.1 g hg
  omega

/-- Membership after a non-empty sequence of pushes, in terms of the values pushed. -/
theorem contains_pushAll_iff (tbits BitSize : Nat) (vals : List Nat) (g v : Nat)
    (hg : g ∈ vals) (hmax : ∀ u ∈ vals, u ≤ g) :
    contains BitSize (pushAll tbits BitSize vals) v = true ↔ v ∈ vals ∧ g ≤ v + BitSize := by
  have hT := tracks_pushAll tbits BitSize vals (List.ne_nil_of_mem hg)
  rw [contains_iff_of_tracks BitSize _ vals v hT, greatest_pushAll tbits BitSize vals g hg hmax]

end cs.BitHeap

namespace cs.BitHeap

/-- What `push(v)` followed by `contains(v)` answers, from any state of the heap. -/
theorem contains_push_self_iff (BitSize : Nat) (h : BitHeap) (v : Nat) :
    contains BitSize (push BitSize h v) v = true ↔
      (h.isValueSet_ = false ∨ h.greatest_ ≤ v + BitSize) := by
  unfold push
  cases hs : h.isValueSet_ with
  | false => simp [contains]
  | true =>
    simp only [Bool.not_true, Bool.false_eq_true, if_false, false_or]
    by_cases h1 : v > h.greatest_
    · simp only [h1, if_true]
      simp [contains]
      omega
    · simp only [h1, if_false]
      by_cases h2 : v < h.greatest_
      · simp only [h2, if_true]
        by_cases h3 : h.greatest_ - v - 1 < BitSize
        · simp only [h3, if_true]
          have hne : ¬ v = h.greatest_ := by omega
          simp [contains, h1, hne, h3, testBit_bitsetSet]
          omega
        · simp only [h3, if_false]
          have hne : ¬ v = h.greatest_ := by omega
          simp [contains, h1, hne, h3]
          omega
      · simp only [h2, if_false]
        have hv : v = h.greatest_ := by omega
        simp [contains, hv]

theorem isValueSet_pushAll (tbits BitSize : Nat) (vals : List Nat) :
    (pushAll tbits BitSize vals).isValueSet_ = false ↔ vals = [] := by
  constructor
  · intro h
    by_contra hne
    have := (tracks_pushAll tbits BitSize vals hne).1
    rw [h] at this
    exact absurd this (by decide)
  · rintro rfl
    rfl

theorem wrapSub_lt (w a b : Nat) : wrapSub w a b < 2 ^ w :=
  Nat.mod_lt _ (Nat.two_pow_pos w)

theorem wrapSub_add (w a b : Nat) : (wrapSub w a b + b) % 2 ^ w = a % 2 ^ w := by
  unfold wrapSub
  have hb : b % 2 ^ w < 2 ^ w := Nat.mod_lt _ (Nat.two_pow_pos w)
  have hdiv : b = 2 ^ w * (b / 2 ^ w) + b % 2 ^ w := (Nat.div_add_mod b (2 ^ w)).symm
  rw [Nat.mod_add_mod]
  have : a % 2 ^ w + (2 ^ w - b % 2 ^ w) + b
      = a % 2 ^ w + 2 ^ w * (b / 2 ^ w + 1) := by
    rw [Nat.mul_add, Nat.mul_one]
    omega
  rw [this, Nat.add_mul_mod_self_left, Nat.mod_mod]

/-- Truncating the `size_t` difference to a narrower `T` is the difference in `T`. -/
theorem wrapSub_narrow (tbits a b : Nat) (ht : tbits ≤ 64) :
    wrapSub 64 a b % 2 ^ tbits = wrapSub tbits a b := by
  have hdvd : 2 ^ tbits ∣ 2 ^ 64 := Nat.pow_dvd_pow 2 ht
  have hpos : 0 < 2 ^ tbits := Nat.two_pow_pos tbits
  have h1 : (wrapSub 64 a b % 2 ^ tbits + b) % 2 ^ tbits = a % 2 ^ tbits := by
    rw [Nat.mod_add_mod, ← Nat.mod_mod_of_dvd (wrapSub 64 a b + b) hdvd, wrapSub_add,
      Nat.mod_mod_of_dvd _ hdvd]
  have h2 := wrapSub_add tbits a b
  have hx : wrapSub 64 a b % 2 ^ tbits < 2 ^ tbits := Nat.mod_lt _ hpos
  have hy := wrapSub_lt tbits a b
  have hmod : wrapSub 64 a b % 2 ^ tbits ≡ wrapSub tbits a b [MOD 2 ^ tbits] :=
    Nat.ModEq.add_right_cancel' b (h1.trans h2.symm)
  exact Nat.ModEq.eq_of_lt_of_lt hmod hx hy

/-- The window of `minMaxRange` bounds membership once the anchor is at least `BitSize`
(no wrap in the subtraction). -/
theorem contains_false_outside_of_le (tbits BitSize : Nat) (vals : List Nat) (v : Nat)
    (hne : vals ≠ []) (ht : tbits ≤ 64)
    (hW : BitSize ≤ (pushAll tbits BitSize vals).greatest_)
    (hfit : (pushAll tbits BitSize vals).greatest_ < 2 ^ tbits)
    (hout : v < (minMaxRange tbits BitSize (pushAll tbits BitSize vals)).1
      ∨ (minMaxRange tbits BitSize (pushAll tbits BitSize vals)).2 < v) :
    contains BitSize (pushAll tbits BitSize vals) v = false := by
  have hT := tracks_pushAll tbits BitSize vals hne
  have hiff := contains_iff_of_tracks BitSize _ vals v hT
  have hlo : (minMaxRange tbits BitSize (pushAll tbits BitSize vals)).1
      = (pushAll tbits BitSize vals).greatest_ - BitSize := by
    simp only [minMaxRange]
    rw [wrapSub_narrow _ _ _ ht]
    have hlt := wrapSub_lt tbits (pushAll tbits BitSize vals).greatest_ BitSize
    have hadd := wrapSub_add tbits (pushAll tbits BitSize vals).greatest_ BitSize
    rw [Nat.mod_eq_of_lt hfit] at hadd
    have hmod : wrapSub tbits (pushAll tbits BitSize vals).greatest_ BitSize
        ≡ (pushAll tbits BitSize vals).greatest_ - BitSize [MOD 2 ^ tbits] := by
      apply Nat.ModEq.add_right_cancel' BitSize
      show _ % _ = _ % _
      rw [hadd, Nat.sub_add_cancel hW, Nat.mod_eq_of_lt hfit]
    exact Nat.ModEq.eq_of_lt_of_lt hmod hlt (by omega)
  rw [hlo] at hout
  simp only [minMaxRange] at hout
  cases hc : contains BitSize (pushAll tbits BitSize vals) v with
  | false => rfl
  | true =>
    have := hiff.1 hc
    have hle := hT.2.2.1 v this.1
    omega

/-! ## Claims on BitHeap -/

/-- C1, as stated, fails at the lower edge of the window: with `W = 64`, after `push(100)`
and `push(36)` the value 36 is contained although it lies below `100 - 64 + 1 = 37`. -/
theorem contains_window_off_by_one :
    ¬ (contains 64 (pushAll 64 64 [100, 36]) 36 = true ↔
        (36 ∈ [100, 36] ∧ 100 - 64 + 1 ≤ 36 ∧ 36 ≤ 100)) := by
  decide

/-- C1, amended: after any sequence of pushes whose largest value is `g`, `contains(v)` is
true exactly when `v` was pushed and lies in the window `[g - W, g]` (the anchor and its
`W` predecessors; the lower end is cut at 0). -/
theorem contains_iff_pushed_in_window (tbits BitSize : Nat) (vals : List Nat) (g v : Nat)
    (hg : g ∈ vals) (hmax : ∀ u ∈ vals, u ≤ g) :
    contains BitSize (pushAll tbits BitSize vals) v = true ↔
      (v ∈ vals ∧ g - BitSize ≤ v ∧ v ≤ g) := by
  rw [contains_pushAll_iff tbits BitSize vals g v hg hmax]
  constructor
  · rintro ⟨hv, hle⟩
    exact ⟨hv, by omega, hmax v hv⟩
  · rintro ⟨hv, hle, _⟩
    exact ⟨hv, by omega⟩

/-- Witness of `contains_iff_pushed_in_window` on the pushes 100, 50, 99, 40 with `W = 64`. -/
theorem contains_iff_pushed_in_window_witness :
    (100 ∈ [100, 50, 99, 40] ∧ ∀ u ∈ [100, 50, 99, 40], u ≤ 100) ∧
    (contains 64 (pushAll 64 64 [100, 50, 99, 40]) 50 = true ↔
      (50 ∈ [100, 50, 99, 40] ∧ 100 - 64 ≤ 50 ∧ 50 ≤ 100)) :=
  ⟨by decide, contains_iff_pushed_in_window 64 64 [100, 50, 99, 40] 100 50
    (by decide) (by decide)⟩

/-- C2, as stated, fails: with `W = 64`, after `push(100)` the call `push(10)` does not
record 10, which lies more than `W` below the anchor, and `contains(10)` is false. -/
theorem push_below_window_not_recorded :
    contains 64 (push 64 (pushAll 64 64 [100]) 10) 10 = false := by
  decide

/-- C2, amended: from every heap reached by pushes (the new heap included), `contains(v)`
right after `push(v)` is true exactly when the heap was empty or `v` is not more than `W`
below the anchor `greatest_`. -/
theorem contains_after_push_iff (tbits BitSize : Nat) (vals : List Nat) (v : Nat) :
    contains BitSize (push BitSize (pushAll tbits BitSize vals) v) v = true ↔
      (vals = [] ∨ (pushAll tbits BitSize vals).greatest_ ≤ v + BitSize) := by
  rw [contains_push_self_iff, isValueSet_pushAll]

/-- C3 at the failing input: on a `BitHeap<uint64_t, 64>` holding only 50, the lower end
returned by `minMaxRange` has wrapped above the anchor, and 50, which is below that lower
end, is contained. -/
theorem minMaxRange_wraps_below_BitSize :
    minMaxRange 64 64 (pushAll 64 64 [50]) = (18446744073709551602, 50) ∧
    50 < (minMaxRange 64 64 (pushAll 64 64 [50])).1 ∧
    contains 64 (pushAll 64 64 [50]) 50 = true := by
  decide

/-- C4: a pushed value `v` with `g - v < W`, `g` the largest value pushed, is contained at
the end of the sequence of pushes. -/
theorem contains_of_pushed_near (tbits BitSize : Nat) (vals : List Nat) (g v : Nat)
    (hg : g ∈ vals) (hmax : ∀ u ∈ vals, u ≤ g) (hv : v ∈ vals) (hnear : g - v < BitSize) :
    contains BitSize (pushAll tbits BitSize vals) v = true :=
  (contains_pushAll_iff tbits BitSize vals g v hg hmax).2 ⟨hv, by omega⟩

/-- Witness of `contains_of_pushed_near`: with `W = 64`, after the pushes 100, 50, 99, 40 the
values 100, 99 and 50 are contained. -/
theorem contains_of_pushed_near_witness :
    contains 64 (pushAll 64 64 [100, 50, 99, 40]) 100 = true ∧
    contains 64 (pushAll 64 64 [100, 50, 99, 40]) 99 = true ∧
    contains 64 (pushAll 64 64 [100, 50, 99, 40]) 50 = true :=
  ⟨contains_of_pushed_near 64 64 [100, 50, 99, 40] 100 100 (by decide) (by decide)
      (by decide) (by decide),
    contains_of_pushed_near 64 64 [100, 50, 99, 40] 100 99 (by decide) (by decide)
      (by decide) (by decide),
    contains_of_pushed_near 64 64 [100, 50, 99, 40] 100 50 (by decide) (by decide)
      (by decide) (by decide)⟩

/-- C5, as stated, fails at `W = 60`: after the pushes 100, 50, 99, 40 the value 40 is
contained, although 60 is not at least 61. -/
theorem contains_40_at_width_60 :
    ¬ ((contains 60 (pushAll 64 60 [100, 50, 99, 40]) 40 = false ↔ 60 < 60) ∧
       (contains 60 (pushAll 64 60 [100, 50, 99, 40]) 40 = true ↔ 60 ≥ 61)) := by
  decide

/-- C5, amended: for every width `W`, after the pushes 100, 50, 99, 40 on a
`BitHeap<uint64, W>`, `contains(40)` is false exactly when `W < 60` and true exactly when
`W ≥ 60`. -/
theorem contains_40_iff_width (BitSize : Nat) :
    (contains BitSize (pushAll 64 BitSize [100, 50, 99, 40]) 40 = false ↔ BitSize < 60) ∧
    (contains BitSize (pushAll 64 BitSize [100, 50, 99, 40]) 40 = true ↔ BitSize ≥ 60) := by
  have h := contains_pushAll_iff 64 BitSize [100, 50, 99, 40] 100 40 (by decide) (by decide)
  have hmem : 40 ∈ [100, 50, 99, 40] := by decide
  constructor
  · rw [← Bool.not_eq_true, h]
    constructor
    · intro hn
      by_contra hlt
      exact hn ⟨hmem, by omega⟩
    · rintro hlt ⟨_, hle⟩
      omega
  · rw [h]
    constructor
    · rintro ⟨_, hle⟩
      omega
    · intro hge
      exact ⟨hmem, by omega⟩

/-- C6: after a non-empty sequence of pushes with largest value `g`, `minMaxRange()` is the
pair `(g - W, g)`, the subtraction being that of the unsigned type `T` (modulo `2 ^ tbits`,
for a `T` of at most 64 bits). -/
theorem minMaxRange_pushAll (tbits BitSize : Nat) (vals : List Nat) (g : Nat)
    (ht : tbits ≤ 64) (hg : g ∈ vals) (hmax : ∀ u ∈ vals, u ≤ g) :
    minMaxRange tbits BitSize (pushAll tbits BitSize vals) = (wrapSub tbits g BitSize, g) := by
  simp only [minMaxRange, greatest_pushAll tbits BitSize vals g hg hmax,
    wrapSub_narrow _ _ _ ht]

/-- Witness of `minMaxRange_pushAll`: after the pushes 100, 50, 99, 40 on a
`BitHeap<uint64_t, 64>` the range is `(100 - 64, 100)`. -/
theorem minMaxRange_pushAll_witness :
    minMaxRange 64 64 (pushAll 64 64 [100, 50, 99, 40]) = (wrapSub 64 100 64, 100) ∧
    wrapSub 64 100 64 = 36 :=
  ⟨minMaxRange_pushAll 64 64 [100, 50, 99, 40] 100 (by decide) (by decide) (by decide),
    by decide⟩

end cs.BitHeap

/-! ## Lemmas on the requested-sequence list -/

namespace cs

theorem upperBoundLoop_eq_bisectLoop (v : List Nat) (value : Nat) :
    ∀ fuel first count, upperBoundLoop v value fuel first count
      = bisectLoop v (fun x => !decide (value < x)) fuel first count := by
  intro fuel
  induction fuel with
  | zero => intro first count; rfl
  | succ n ih =>
    intro first count
    simp only [upperBoundLoop, bisectLoop, ih]

theorem lowerBoundLoop_eq_bisectLoop (v : List Nat) (value : Nat) :
    ∀ fuel first count, lowerBoundLoop v value fuel first count
      = bisectLoop v (fun x => decide (x < value)) fuel first count := by
  intro fuel
  induction fuel with
  | zero => intro first count; rfl
  | succ n ih =>
    intro first count
    simp only [lowerBoundLoop, bisectLoop, ih, decide_eq_true_eq]

/-- With at least `count` turns allowed, the binary search over a vector partitioned by `p`
ends on the partition point. -/
theorem bisectLoop_spec (v : List Nat) (p : Nat → Bool)
    (hpart : ∀ i j, i ≤ j → j < v.length → p (v.getD j 0) = true → p (v.getD i 0) = true) :
    ∀ fuel first count, count ≤ fuel → first + count ≤ v.length →
      (∀ i, i < first → p (v.getD i 0) = true) →
      (∀ i, first + count ≤ i → i < v.length → p (v.getD i 0) = false) →
      bisectLoop v p fuel first count ≤ v.length ∧
      (∀ i, i < bisectLoop v p fuel first count → p (v.getD i 0) = true) ∧
      (∀ i, bisectLoop v p fuel first count ≤ i → i < v.length → p (v.getD i 0) = false) := by
  intro fuel
  induction fuel with
  | zero =>
    intro first count hc hlen hlo hhi
    have : count = 0 := by omega
    subst this
    exact ⟨by simpa [bisectLoop] using hlen, hlo, hhi⟩
  | succ n ih =>
    intro first count hc hlen hlo hhi
    unfold bisectLoop
    by_cases h0 : count > 0
    · simp only [h0, if_true]
      have hstep : count / 2 < count := Nat.div_lt_self h0 (by decide)
      cases hp : p (v.getD (first + count / 2) 0) with
      | true =>
        simp only [if_true]
        refine ih _ _ (by omega) (by omega) ?_ ?_
        · intro i hi
          exact hpart i (first + count / 2) (by omega) (by omega) hp
        · intro i hi hil
          exact hhi i (by omega) hil
      | false =>
        simp only [Bool.false_eq_true, if_false]
        refine ih _ _ (by omega) (by omega) hlo ?_
        intro i hi hil
        cases hq : p (v.getD i 0) with
        | false => rfl
        | true =>
          have := hpart (first + count / 2) i hi hil hq
          rw [hp] at this
          exact absurd this (by decide)
    · simp only [h0, if_false]
      have : count = 0 := by omega
      subst this
      exact ⟨by simpa using hlen, hlo, hhi⟩

/-- A partition point splits a vector into the elements that pass the test and the rest. -/
theorem filter_of_partition (p : Nat → Bool) :
    ∀ (v : List Nat) (r : Nat), r ≤ v.length →
      (∀ i, i < r → p (v.getD i 0) = true) →
      (∀ i, r ≤ i → i < v.length → p (v.getD i 0) = false) →
      v.take r = v.filter p ∧ v.drop r = v.filter (fun x => !p x) := by
  intro v
  induction v with
  | nil => intro r _ _ _; simp
  | cons a t ih =>
    intro r hr hlo hhi
    cases r with
    | zero =>
      have hall : ∀ x ∈ a :: t, p x = false := by
        intro x hx
        obtain ⟨i, hi, rfl⟩ := List.mem_iff_getElem.1 hx
        have := hhi i (Nat.zero_le _) hi
        rwa [List.getD_eq_getElem _ _ hi] at this
      constructor
      · symm
        rw [List.take_zero, List.filter_eq_nil_iff]
        intro x hx
        simp [hall x hx]
      · symm
        rw [List.drop_zero, List.filter_eq_self]
        intro x hx
        simp [hall x hx]
    | succ r =>
      have ha : p a = true := by simpa using hlo 0 (Nat.succ_pos _)
      have hr' : r ≤ t.length := by simpa using hr
      obtain ⟨h1, h2⟩ := ih r hr'
        (fun i hi => by simpa using hlo (i + 1) (by omega))
        (fun i hi hil => by simpa using hhi (i + 1) (by omega) (by simpa using hil))
      constructor
      · simp [List.filter_cons, ha, h1]
      · simp [List.filter_cons, ha, h2]

theorem getD_le_of_sorted (v : List Nat) (hs : v.Pairwise (· ≤ ·)) (i j : Nat)
    (hij : i ≤ j) (hj : j < v.length) : v.getD i 0 ≤ v.getD j 0 := by
  have hi : i < v.length := by omega
  rw [List.getD_eq_getElem _ _ hi, List.getD_eq_getElem _ _ hj]
  rcases Nat.lt_or_eq_of_le hij with h | h
  · exact List.pairwise_iff_getElem.1 hs i j hi hj h
  · subst h; exact Nat.le_refl _

/-- On a sorted vector `std::upper_bound` is the start of the elements `> value`. -/
theorem drop_stdUpperBound (v : List Nat) (value : Nat) (hs : v.Pairwise (· ≤ ·)) :
    v.drop (stdUpperBound v value) = v.filter (fun x => decide (value < x)) := by
  unfold stdUpperBound
  rw [upperBoundLoop_eq_bisectLoop]
  obtain ⟨h1, h2, h3⟩ := bisectLoop_spec v (fun x => !decide (value < x))
    (fun i j hij hj hp => by
      have := getD_le_of_sorted v hs i j hij hj
      simp only [Bool.not_eq_true', decide_eq_false_iff_not, Nat.not_lt] at hp ⊢
      omega)
    v.length 0 v.length (Nat.le_refl _) (by omega) (fun i hi => absurd hi (Nat.not_lt_zero _))
    (fun i hi hil => by omega)
  have := (filter_of_partition (fun x => !decide (value < x)) v _ h1 h2 h3).2
  simpa using this

/-- On a sorted vector `std::lower_bound` is the end of the elements `< value`. -/
theorem take_stdLowerBound (v : List Nat) (value : Nat) (hs : v.Pairwise (· ≤ ·)) :
    v.take (stdLowerBound v value) = v.filter (fun x => decide (x < value)) := by
  unfold stdLowerBound
  rw [lowerBoundLoop_eq_bisectLoop]
  obtain ⟨h1, h2, h3⟩ := bisectLoop_spec v (fun x => decide (x < value))
    (fun i j hij hj hp => by
      have := getD_le_of_sorted v hs i j hij hj
      simp only [decide_eq_true_eq] at hp ⊢
      omega)
    v.length 0 v.length (Nat.le_refl _) (by omega) (fun i hi => absurd hi (Nat.not_lt_zero _))
    (fun i hi hil => by omega)
  exact (filter_of_partition (fun x => decide (x < value)) v _ h1 h2 h3).1

theorem eraseIdx_stdFind (v : List Nat) (value : Nat) :
    v.eraseIdx (stdFind v value) = v.erase value := by
  induction v with
  | nil => rfl
  | cons a t ih =>
    by_cases h : a = value
    · subst h; simp [stdFind]
    · have h' : ¬ (a == value) = true := by simpa using h
      simp [stdFind, h, List.erase_cons, ih]

theorem stdFind_le (v : List Nat) (value : Nat) : stdFind v value ≤ v.length := by
  induction v with
  | nil => simp [stdFind]
  | cons a t ih =>
    by_cases h : a = value
    · simp [stdFind, h]
    · simp [stdFind, h, ih]

theorem stdFind_eq_length (v : List Nat) (value : Nat) :
    stdFind v value = v.length ↔ value ∉ v := by
  induction v with
  | nil => simp [stdFind]
  | cons a t ih =>
    by_cases h : a = value
    · subst h; simp [stdFind]
    · have h' : ¬ value = a := fun e => h e.symm
      simp [stdFind, h, h', ih]

namespace NeighboursSetElemet

/-- The list left by `removeSequnce(sequence, EXACT)`. -/
theorem removeSequnce_exact (e : NeighboursSetElemet) (s : Nat) :
    (e.removeSequnce s .EXACT).2.sequences_ = e.sequences_.erase s := by
  unfold removeSequnce
  split
  · rename_i h
    simp [List.isEmpty_iff.1 h]
  · simp only
    split
    · simp [eraseIdx_stdFind]
    · rename_i h
      have : s ∉ e.sequences_ := (stdFind_eq_length _ _).1 (by simpa using h)
      simp [List.erase_of_not_mem this]

/-- The list left by `removeSequnce(sequence, LOWER_BOUND)`. -/
theorem removeSequnce_lower (e : NeighboursSetElemet) (s : Nat) :
    (e.removeSequnce s .LOWER_BOUND).2.sequences_
      = e.sequences_.drop (stdUpperBound e.sequences_ s) := by
  unfold removeSequnce
  split
  · rename_i h
    simp [List.isEmpty_iff.1 h]
  · simp only
    split
    · simp [eraseRange]
    · rename_i h
      have : stdUpperBound e.sequences_ s = 0 := by simpa using h
      simp [this]

/-- The list left by `removeSequnce(sequence, UPPER_BOUND)`. -/
theorem removeSequnce_upper (e : NeighboursSetElemet) (s : Nat) :
    (e.removeSequnce s .UPPER_BOUND).2.sequences_
      = e.sequences_.take (stdLowerBound e.sequences_ s) := by
  unfold removeSequnce
  split
  · rename_i h
    simp [List.isEmpty_iff.1 h]
  · simp only
    split
    · simp [eraseRange]
    · rename_i h
      have : stdLowerBound e.sequences_ s = e.sequences_.length := by simpa using h
      simp [this]

end NeighboursSetElemet

end cs

namespace cs

theorem head_le_getLast_of_sorted (l : List Nat) (hs : l.Pairwise (· < ·)) (hne : l ≠ []) :
    l.head hne ≤ l.getLast hne := by
  cases l with
  | nil => exact absurd rfl hne
  | cons a t =>
    have hmem := List.getLast_mem hne
    rcases List.mem_cons.1 hmem with h | h
    · simp [h]
    · exact Nat.le_of_lt ((List.pairwise_cons.1 hs).1 _ h)

namespace NeighboursSetElemet

/-! ## Claims on `removeSequnce` -/

/-- C7: on a strictly sorted list, `removeSequnce(s, EXACT)` leaves the list with `s` deleted
and every other element in place, so `s` is no longer in it, and leaves the list unchanged
when `s` is not in it. -/
theorem removeSequnce_exact_removes_single (e : NeighboursSetElemet) (s : Nat)
    (hs : e.sequences_.Pairwise (· < ·)) :
    (e.removeSequnce s .EXACT).2.sequences_ = e.sequences_.filter (fun x => x != s) ∧
    s ∉ (e.removeSequnce s .EXACT).2.sequences_ ∧
    (s ∉ e.sequences_ → (e.removeSequnce s .EXACT).2.sequences_ = e.sequences_) := by
  have hnd : e.sequences_.Nodup := hs.imp (fun h => Nat.ne_of_lt h)
  rw [removeSequnce_exact]
  refine ⟨hnd.erase_eq_filter s, hnd.not_mem_erase, fun h => List.erase_of_not_mem h⟩

/-- Witness of `removeSequnce_exact_removes_single` on the list 1, 3, 5, 7, 9 and `s = 5`. -/
theorem removeSequnce_exact_removes_single_witness :
    ([1, 3, 5, 7, 9] : List Nat).Pairwise (· < ·) ∧
    (removeSequnce { sequences_ := [1, 3, 5, 7, 9] } 5 .EXACT).2.sequences_ = [1, 3, 7, 9] ∧
    5 ∉ (removeSequnce { sequences_ := [1, 3, 5, 7, 9] } 5 .EXACT).2.sequences_ :=
  ⟨by decide,
    (removeSequnce_exact_removes_single { sequences_ := [1, 3, 5, 7, 9] } 5 (by decide)).1.trans
      (by decide),
    (removeSequnce_exact_removes_single { sequences_ := [1, 3, 5, 7, 9] } 5 (by decide)).2.1⟩

/-- C8: on a sorted list, `removeSequnce(s, LOWER_BOUND)` leaves exactly the elements `> s`,
in their original order; every remaining element is `> s`. -/
theorem removeSequnce_lower_bound_keeps_greater (e : NeighboursSetElemet) (s : Nat)
    (hs : e.sequences_.Pairwise (· ≤ ·)) :
    (e.removeSequnce s .LOWER_BOUND).2.sequences_
        = e.sequences_.filter (fun x => decide (s < x)) ∧
    ∀ x ∈ (e.removeSequnce s .LOWER_BOUND).2.sequences_, s < x := by
  rw [removeSequnce_lower, drop_stdUpperBound _ _ hs]
  refine ⟨rfl, ?_⟩
  intro x hx
  simpa using (List.mem_filter.1 hx).2

/-- Witness of `removeSequnce_lower_bound_keeps_greater` on the list 1, 3, 5, 7, 9 and
`s = 5`. -/
theorem removeSequnce_lower_bound_keeps_greater_witness :
    ([1, 3, 5, 7, 9] : List Nat).Pairwise (· ≤ ·) ∧
    (removeSequnce { sequences_ := [1, 3, 5, 7, 9] } 5 .LOWER_BOUND).2.sequences_ = [7, 9] :=
  ⟨by decide,
    (removeSequnce_lower_bound_keeps_greater { sequences_ := [1, 3, 5, 7, 9] } 5
      (by decide)).1.trans (by decide)⟩

/-- C9: on a sorted list, `removeSequnce(s, UPPER_BOUND)` leaves exactly the elements `< s`,
in their original order. -/
theorem removeSequnce_upper_bound_keeps_less (e : NeighboursSetElemet) (s : Nat)
    (hs : e.sequences_.Pairwise (· ≤ ·)) :
    (e.removeSequnce s .UPPER_BOUND).2.sequences_
        = e.sequences_.filter (fun x => decide (x < s)) := by
  rw [removeSequnce_upper, take_stdLowerBound _ _ hs]

/-- Witness of `removeSequnce_upper_bound_keeps_less` on the list 1, 3, 5, 7, 9 and
`s = 5`. -/
theorem removeSequnce_upper_bound_keeps_less_witness :
    ([1, 3, 5, 7, 9] : List Nat).Pairwise (· ≤ ·) ∧
    (removeSequnce { sequences_ := [1, 3, 5, 7, 9] } 5 .UPPER_BOUND).2.sequences_ = [1, 3] :=
  ⟨by decide,
    (removeSequnce_upper_bound_keeps_less { sequences_ := [1, 3, 5, 7, 9] } 5
      (by decide)).trans (by decide)⟩

/-- C10: on a strictly sorted list, `removeSequnce` in every mode leaves a strictly sorted
list that is a sub-list of the original one; when it is not empty its first element is at
most its last. -/
theorem removeSequnce_preserves_sorted (e : NeighboursSetElemet) (s : Nat)
    (accuracy : SequenceRemovalAccuracy) (hs : e.sequences_.Pairwise (· < ·)) :
    (e.removeSequnce s accuracy).2.sequences_.Pairwise (· < ·) ∧
    (e.removeSequnce s accuracy).2.sequences_.Sublist e.sequences_ ∧
    ∀ hne : (e.removeSequnce s accuracy).2.sequences_ ≠ [],
      (e.removeSequnce s accuracy).2.sequences_.head hne
        ≤ (e.removeSequnce s accuracy).2.sequences_.getLast hne := by
  have hsub : (e.removeSequnce s accuracy).2.sequences_.Sublist e.sequences_ := by
    cases accuracy with
    | EXACT => rw [removeSequnce_exact]; exact List.erase_sublist _ _
    | LOWER_BOUND => rw [removeSequnce_lower]; exact List.drop_sublist _ _
    | UPPER_BOUND => rw [removeSequnce_upper]; exact List.take_sublist _ _
  have hsorted := hs.sublist hsub
  exact ⟨hsorted, hsub, fun hne => head_le_getLast_of_sorted _ hsorted hne⟩

/-- Witness of `removeSequnce_preserves_sorted` on the list 1, 3, 5, 7, 9, `s = 4` and the
mode `LOWER_BOUND`, which leaves 5, 7, 9. -/
theorem removeSequnce_preserves_sorted_witness :
    ([1, 3, 5, 7, 9] : List Nat).Pairwise (· < ·) ∧
    (removeSequnce { sequences_ := [1, 3, 5, 7, 9] } 4 .LOWER_BOUND).2.sequences_ = [5, 7, 9] ∧
    (removeSequnce { sequences_ := [1, 3, 5, 7, 9] } 4 .LOWER_BOUND).2.sequences_.Pairwise
      (· < ·) :=
  ⟨by decide, by decide,
    (removeSequnce_preserves_sorted { sequences_ := [1, 3, 5, 7, 9] } 4 .LOWER_BOUND
      (by decide)).1⟩

end NeighboursSetElemet

end cs


/-! ## Lemmas on RunAfterEx -/

namespace RunAfterEx

/-- With a launch count of zero the stop condition holds and nothing changes. -/
theorem HandleStopCondition_of_zero (s : RunAfterEx) (h : s._remains = 0) :
    HandleStopCondition s = (true, s) := by
  simp [HandleStopCondition, h]

/-- With a negative launch count the stop condition never holds and nothing changes. -/
theorem HandleStopCondition_of_neg (s : RunAfterEx) (h : s._remains < 0) :
    HandleStopCondition s = (false, s) := by
  have h1 : ¬ s._remains > 0 := by omega
  have h2 : ¬ s._remains = 0 := by omega
  simp [HandleStopCondition, h1, h2]

/-- With a positive launch count the count goes down by one, and the stop condition holds
when it has reached zero. -/
theorem HandleStopCondition_of_pos (s : RunAfterEx) (h : s._remains > 0) :
    HandleStopCondition s
      = (decide (s._remains = 1), { s with _remains := s._remains - 1 }) := by
  by_cases h1 : s._remains = 1
  · simp [HandleStopCondition, h1]
  · have h2 : ¬ s._remains - 1 = 0 := by omega
    simp [HandleStopCondition, h, h1, h2]

/-- A woken worker whose launch count is zero leaves the loop without a call. -/
theorem workerRun_of_zero (s : RunAfterEx) (fuel : Nat) (h : s._remains = 0) :
    workerRun (fuel + 1) s = (true, { s with _launched := false }) := by
  simp [workerRun, workerTurn, HandleStopCondition_of_zero s h]

/-- A woken worker whose launch count is one leaves the loop without a call. -/
theorem workerRun_of_one (s : RunAfterEx) (fuel : Nat) (h : s._remains = 1) :
    workerRun (fuel + 1) s = (true, { s with _remains := 0, _launched := false }) := by
  have hpos : s._remains > 0 := by omega
  simp [workerRun, workerTurn, HandleStopCondition_of_pos s hpos, h]

/-- A worker with launch count `-1` makes one call per turn and stays in the loop. -/
theorem workerRun_of_forever (k : Nat) :
    ∀ s : RunAfterEx, s._remains = -1 →
      workerRun k s = (false, { s with executed := s.executed + k }) := by
  induction k with
  | zero => intro s _; simp [workerRun]
  | succ k ih =>
    intro s h
    have hneg : s._remains < 0 := by omega
    have hneg2 : (ExecuteProc s)._remains < 0 := by simpa [ExecuteProc] using hneg
    have hturn : workerTurn s = (false, ExecuteProc s) := by
      simp [workerTurn, workerTurnFromExecute, HandleStopCondition_of_neg s hneg,
        HandleStopCondition_of_neg _ hneg2]
    rw [workerRun, hturn]
    simp only [Bool.false_eq_true, if_false]
    rw [ih (ExecuteProc s) (by simpa [ExecuteProc] using h)]
    simp [ExecuteProc, Nat.add_assoc, Nat.add_comm 1 k]

/-- A woken worker with launch count `n ≥ 0` makes `n / 2` calls and leaves the loop: every
turn takes two from the count, one at each `HandleStopCondition`. -/
theorem workerRun_of_count (fuel : Nat) :
    ∀ (n : Nat) (s : RunAfterEx), s._remains = (n : Int) → n / 2 < fuel →
      workerRun fuel s
        = (true, { s with _remains := 0, _launched := false, executed := s.executed + n / 2 }) := by
  induction fuel with
  | zero => intro n s _ hf; omega
  | succ fuel ih =>
    intro n s h hf
    rcases n with _ | _ | n
    · have h0 : s._remains = 0 := by simpa using h
      rw [workerRun_of_zero s fuel h0]
      simp [h0]
    · have h1 : s._remains = 1 := by simpa using h
      rw [workerRun_of_one s fuel h1]
      simp
    · have hpos : s._remains > 0 := by omega
      have hne : ¬ s._remains = 1 := by omega
      have hpos2 : (ExecuteProc { s with _remains := s._remains - 1 })._remains > 0 := by
        simp only [ExecuteProc]; omega
      have hturn : workerTurn s
          = (decide (n = 0),
              { s with _remains := (n : Int), executed := s.executed + 1 }) := by
        simp only [workerTurn, workerTurnFromExecute, HandleStopCondition_of_pos s hpos, hne,
          decide_False, Bool.false_eq_true, if_false, HandleStopCondition_of_pos _ hpos2]
        simp only [ExecuteProc, h]
        congr 1
        · congr 1
          apply propext
          omega
        · congr 1
          omega
      rw [workerRun, hturn]
      rcases n with _ | n
      · simp
      · have hdec : decide (n + 1 = 0) = false := by simp
        simp only [hdec, Bool.false_eq_true, if_false]
        rw [ih (n + 1) _ rfl (by omega)]
        simp only [Prod.mk.injEq, true_and]
        congr 1
        omega

end RunAfterEx

namespace cs.NeighboursSetElemet

/-- Every mode of `removeSequnce` leaves a sub-list of the list it was called on. -/
theorem removeSequnce_sublist (e : NeighboursSetElemet) (s : Nat)
    (accuracy : SequenceRemovalAccuracy) :
    (e.removeSequnce s accuracy).2.sequences_.Sublist e.sequences_ := by
  cases accuracy with
  | EXACT => rw [removeSequnce_exact]; exact List.erase_sublist _ _
  | LOWER_BOUND => rw [removeSequnce_lower]; exact List.drop_sublist _ _
  | UPPER_BOUND => rw [removeSequnce_upper]; exact List.take_sublist _ _

/-! ## Claims on the mutators of the requested-sequence list -/

/-- C11, as stated, fails: `addSequences` is a bare `push_back`; on the strictly sorted list
holding 5, `addSequences(3)` leaves 5, 3, which is not sorted. -/
theorem addSequences_breaks_sorted :
    ([5] : List Nat).Pairwise (· < ·) ∧
    ¬ (addSequences { sequences_ := [5] } 3).sequences_.Pairwise (· < ·) := by
  decide

/-- C11, amended: starting from a strictly sorted list, `removeSequnce`, `reset` and
`resetSequences` leave the list strictly sorted (so duplicate-free); `addSequences(s)` leaves
it strictly sorted exactly when `s` is greater than every element already in it; and
`setSequences(v)` clears the list and then copies `v`: called with another vector it leaves
the list equal to `v`, so strictly sorted exactly when `v` is, and called with the element's
own list it leaves the list empty. -/
theorem mutators_sorted (e : NeighboursSetElemet) (hs : e.sequences_.Pairwise (· < ·)) :
    (∀ s accuracy, (e.removeSequnce s accuracy).2.sequences_.Pairwise (· < ·) ∧
      (e.removeSequnce s accuracy).2.sequences_.Nodup) ∧
    e.reset.sequences_.Pairwise (· < ·) ∧
    e.resetSequences.sequences_.Pairwise (· < ·) ∧
    (∀ s, (e.addSequences s).sequences_.Pairwise (· < ·) ↔ ∀ x ∈ e.sequences_, x < s) ∧
    (∀ v, (e.setSequences (.other v)).sequences_ = v) ∧
    (e.setSequences .own).sequences_ = [] := by
  refine ⟨?_, ?_, ?_, ?_, ?_, rfl⟩
  · intro s accuracy
    have h := hs.sublist (removeSequnce_sublist e s accuracy)
    exact ⟨h, h.imp (fun hlt => Nat.ne_of_lt hlt)⟩
  · simp [reset, resetSequences]
  · simp [resetSequences]
  · intro s
    simp only [addSequences, List.pairwise_append, List.pairwise_singleton,
      List.mem_singleton, forall_eq, true_and]
    exact ⟨fun h => h.2, fun h => ⟨hs, h⟩⟩
  · intro v
    rfl

/-- Witness of `mutators_sorted` on the list 1, 3, 5: adding 7 keeps it sorted. -/
theorem mutators_sorted_witness :
    ([1, 3, 5] : List Nat).Pairwise (· < ·) ∧
    (addSequences { sequences_ := [1, 3, 5] } 7).sequences_.Pairwise (· < ·) :=
  ⟨by decide,
    ((mutators_sorted { sequences_ := [1, 3, 5] } (by decide)).2.2.2.1 7).2 (by decide)⟩

end cs.NeighboursSetElemet

namespace RunAfterEx

/-! ## Claims on RunAfterEx -/

/-- C12 at the failing input: on an object that is not launched, `Schedule(delay, single)`
sets the launch count to 1, and the woken worker leaves the loop at its first
`HandleStopCondition`, which takes the count to 0: `ExecuteProc` is not called at all. -/
theorem single_schedule_never_fires (s : RunAfterEx) (fuel : Nat) :
    (Schedule { s with _launched := false } .single)._remains = 1 ∧
    (workerRun (fuel + 1) (Schedule { s with _launched := false } .single)).1 = true ∧
    (workerRun (fuel + 1) (Schedule { s with _launched := false } .single)).2.executed
      = s.executed := by
  have h1 : (Schedule { s with _launched := false } .single)._remains = 1 := by
    simp [Schedule]
  refine ⟨h1, ?_, ?_⟩
  · rw [workerRun_of_one _ fuel h1]
  · rw [workerRun_of_one _ fuel h1]
    simp [Schedule]

/-- C14 at the failing inputs: a periodic task that has fired `k` times and gets
`CancelAfter(n)` in its sleep fires `n / 2` more times, not `n`, before the loop ends (each
turn takes two from the count); with `n = 1` it does not fire again, with `n = 2` once. -/
theorem cancelAfter_fires_half (s : RunAfterEx) (k n : Nat) :
    (workerRun (n + 1) (CancelAfter
      (workerRun k (Schedule { s with _launched := false } .periodic)).2 n)).1 = true ∧
    (workerRun (n + 1) (CancelAfter
      (workerRun k (Schedule { s with _launched := false } .periodic)).2 n)).2.executed
      = s.executed + k + n / 2 := by
  have hrun := workerRun_of_forever k (Schedule { s with _launched := false } .periodic)
    (by simp [Schedule])
  have hn : ¬ ((n : Int) < 0) := by omega
  have hrem : (CancelAfter
      (workerRun k (Schedule { s with _launched := false } .periodic)).2 n)._remains
        = (n : Int) := by
    rw [hrun]
    simp [CancelAfter, Schedule, hn]
  have hfuel : n / 2 < n + 1 := by omega
  rw [workerRun_of_count (n + 1) n _ hrem hfuel]
  refine ⟨rfl, ?_⟩
  rw [hrun]
  simp [CancelAfter, Schedule, hn]

/-- C15: while `_launched` is true, `Schedule` changes nothing in the object (neither
`_launched` nor `_remains`, and no worker is started); so a second `Schedule(delay, single)`
right after a first leaves the same object, and the worker runs the same from it. -/
theorem schedule_rejected_when_launched (s t : RunAfterEx) (scheme : LaunchScheme)
    (fuel : Nat) (h : s._launched = true) :
    Schedule s scheme = s ∧
    Schedule (Schedule t .single) .single = Schedule t .single ∧
    workerRun fuel (Schedule (Schedule t .single) .single)
      = workerRun fuel (Schedule t .single) := by
  have h2 : Schedule (Schedule t .single) .single = Schedule t .single := by
    cases hl : t._launched <;> simp [Schedule, hl]
  exact ⟨by simp [Schedule, h], h2, by rw [h2]⟩

/-- Witness of `schedule_rejected_when_launched` on the object left by a first
`Schedule(delay, single)`: a periodic `Schedule` on it changes nothing. -/
theorem schedule_rejected_when_launched_witness :
    (Schedule {} .single)._launched = true ∧
    Schedule (Schedule {} .single) .periodic
      = { _launched := true, _remains := 1, workers := 1, executed := 0 } :=
  ⟨by decide,
    (schedule_rejected_when_launched (Schedule {} .single) {} .periodic 1 (by decide)).1.trans
      (by decide)⟩

/-- C16: after `Schedule(delay, periodic)` on an object that is not launched, with no call
of `Cancel` or `CancelAfter`, `HandleStopCondition` returns false and changes nothing at
every point the worker reaches, and after `k` turns the worker is still in its loop and has
called `ExecuteProc` exactly `k` times. -/
theorem periodic_never_stops (s : RunAfterEx) (k : Nat) (h : s._launched = false) :
    (Schedule s .periodic)._remains = -1 ∧
    HandleStopCondition (workerRun k (Schedule s .periodic)).2
      = (false, (workerRun k (Schedule s .periodic)).2) ∧
    HandleStopCondition (ExecuteProc (workerRun k (Schedule s .periodic)).2)
      = (false, ExecuteProc (workerRun k (Schedule s .periodic)).2) ∧
    (workerRun k (Schedule s .periodic)).2._remains = -1 ∧
    (workerRun k (Schedule s .periodic)).1 = false ∧
    (workerRun k (Schedule s .periodic)).2.executed = s.executed + k := by
  have hrem : (Schedule s .periodic)._remains = -1 := by simp [Schedule, h]
  have hrun := workerRun_of_forever k (Schedule s .periodic) hrem
  rw [hrun]
  refine ⟨hrem, ?_, ?_, ?_, rfl, ?_⟩
  · exact HandleStopCondition_of_neg _ (by simp [hrem])
  · exact HandleStopCondition_of_neg _ (by simp [ExecuteProc, hrem])
  · simpa using hrem
  · simp [Schedule, h]

/-- Witness of `periodic_never_stops` on a new object: after 7 turns the worker has made 7
calls and is still in its loop. -/
theorem periodic_never_stops_witness :
    ({} : RunAfterEx)._launched = false ∧
    (workerRun 7 (Schedule {} .periodic)).1 = false ∧
    (workerRun 7 (Schedule {} .periodic)).2.executed = 0 + 7 :=
  ⟨by decide, (periodic_never_stops {} 7 (by decide)).2.2.2.2.1,
    (periodic_never_stops {} 7 (by decide)).2.2.2.2.2⟩

end RunAfterEx

namespace csconnector.connector

/-! ## Claims on csconnector::connector -/

/-- C17 at the failing input: the first statement of `run()` is the expression statement
`stop_flag - false;`, which writes nothing: it leaves every object as it is, so after
`stop()` the flag is still true once that statement has executed. -/
theorem run_keeps_stop_flag (c : connector) :
    (runFirstStatement c).2 = c ∧
    (stop new).stop_flag = true ∧
    (runFirstStatement (stop new)).2.stop_flag = true :=
  ⟨rfl, rfl, rfl⟩

end csconnector.connector

namespace cs.BitHeap

/-! ## Claims on the new BitHeap -/

/-- C20 at the failing input: a new heap is empty and counts 0 values, yet `contains`
answers true for the maximum of `T`, the value the constructor stores in `greatest_`, and
for no other value. -/
theorem contains_max_on_new (tbits BitSize v : Nat) :
    empty (new tbits) = true ∧
    count BitSize (new tbits) = 0 ∧
    contains BitSize (new tbits) (numericLimitsMax tbits) = true ∧
    (contains BitSize (new tbits) v = true ↔ v = numericLimitsMax tbits) := by
  refine ⟨rfl, rfl, by simp [contains, new], ?_⟩
  by_cases h1 : v > numericLimitsMax tbits
  · have hne : v ≠ numericLimitsMax tbits := by omega
    simp [contains, new, h1, hne]
  · by_cases h2 : v = numericLimitsMax tbits
    · simp [contains, new, h2]
    · simp [contains, new, h1, h2]

end cs.BitHeap

/-! ## Further lemmas and claims on `removeSequnce` and the element order -/

namespace cs

theorem bisectLoop_le (v : List Nat) (p : Nat → Bool) :
    ∀ fuel first count, bisectLoop v p fuel first count ≤ first + count := by
  intro fuel
  induction fuel with
  | zero => intro first count; simp [bisectLoop]
  | succ n ih =>
    intro first count
    unfold bisectLoop
    by_cases h0 : count > 0
    · simp only [h0, if_true]
      have hstep : count / 2 < count := Nat.div_lt_self h0 (by decide)
      split
      · have := ih (first + count / 2 + 1) (count - (count / 2 + 1))
        omega
      · have := ih first (count / 2)
        omega
    · simp [h0]

theorem stdUpperBound_le (v : List Nat) (value : Nat) : stdUpperBound v value ≤ v.length := by
  unfold stdUpperBound
  rw [upperBoundLoop_eq_bisectLoop]
  simpa using bisectLoop_le v _ v.length 0 v.length

theorem stdLowerBound_le (v : List Nat) (value : Nat) : stdLowerBound v value ≤ v.length := by
  unfold stdLowerBound
  rw [lowerBoundLoop_eq_bisectLoop]
  simpa using bisectLoop_le v _ v.length 0 v.length

namespace NeighboursSetElemet

/-- The flag and the list of `removeSequnce` in the mode `EXACT`. -/
theorem removeSequnce_flag_exact (e : NeighboursSetElemet) (s : Nat) :
    ((e.removeSequnce s .EXACT).1 = true ↔
      (e.removeSequnce s .EXACT).2.sequences_.length < e.sequences_.length) ∧
    ((e.removeSequnce s .EXACT).1 = false → (e.removeSequnce s .EXACT).2 = e) := by
  unfold removeSequnce
  split
  · simp
  · simp only
    split
    · rename_i h
      have hlt : stdFind e.sequences_ s < e.sequences_.length :=
        Nat.lt_of_le_of_ne (stdFind_le _ _) h
      simp [List.length_eraseIdx, hlt]
      omega
    · simp

/-- The flag and the list of `removeSequnce` in the mode `LOWER_BOUND`. -/
theorem removeSequnce_flag_lower (e : NeighboursSetElemet) (s : Nat) :
    ((e.removeSequnce s .LOWER_BOUND).1 = true ↔
      (e.removeSequnce s .LOWER_BOUND).2.sequences_.length < e.sequences_.length) ∧
    ((e.removeSequnce s .LOWER_BOUND).1 = false → (e.removeSequnce s .LOWER_BOUND).2 = e) := by
  unfold removeSequnce
  split
  · simp
  · simp only
    split
    · rename_i h
      have hle := stdUpperBound_le e.sequences_ s
      simp [eraseRange]
      omega
    · simp

/-- The flag and the list of `removeSequnce` in the mode `UPPER_BOUND`. -/
theorem removeSequnce_flag_upper (e : NeighboursSetElemet) (s : Nat) :
    ((e.removeSequnce s .UPPER_BOUND).1 = true ↔
      (e.removeSequnce s .UPPER_BOUND).2.sequences_.length < e.sequences_.length) ∧
    ((e.removeSequnce s .UPPER_BOUND).1 = false → (e.removeSequnce s .UPPER_BOUND).2 = e) := by
  unfold removeSequnce
  split
  · simp
  · simp only
    split
    · rename_i h
      have hle := stdLowerBound_le e.sequences_ s
      simp [eraseRange]
      omega
    · simp

/-- C22: in every mode `removeSequnce` returns true exactly when the list afterwards is
strictly shorter than before; when it returns false the element, its list included, is
unchanged; on an empty list it returns false. -/
theorem removeSequnce_flag (e : NeighboursSetElemet) (s : Nat)
    (accuracy : SequenceRemovalAccuracy) :
    ((e.removeSequnce s accuracy).1 = true ↔
      (e.removeSequnce s accuracy).2.sequences_.length < e.sequences_.length) ∧
    ((e.removeSequnce s accuracy).1 = false → (e.removeSequnce s accuracy).2 = e) ∧
    (e.sequences_ = [] → (e.removeSequnce s accuracy).1 = false) := by
  have hempty : e.sequences_ = [] → (e.removeSequnce s accuracy).1 = false := by
    intro h
    simp [removeSequnce, h]
  cases accuracy with
  | EXACT => exact ⟨(removeSequnce_flag_exact e s).1, (removeSequnce_flag_exact e s).2, hempty⟩
  | LOWER_BOUND =>
    exact ⟨(removeSequnce_flag_lower e s).1, (removeSequnce_flag_lower e s).2, hempty⟩
  | UPPER_BOUND =>
    exact ⟨(removeSequnce_flag_upper e s).1, (removeSequnce_flag_upper e s).2, hempty⟩

/-- C24 at the failing input: `operator>` is the negation of `operator<`, so `a > b` holds
exactly when `a.maxSequence() >= b.maxSequence()`; `a > a` is true for every element, and two
elements with equal `maxSequence()` are each greater than the other. -/
theorem gt_is_not_strict (a b : NeighboursSetElemet) :
    (a.gt b = true ↔ b.maxSequence ≤ a.maxSequence) ∧
    a.gt a = true ∧
    (gt { maxSequence_ := 7, key_ := [1] } { maxSequence_ := 7, key_ := [2] } = true ∧
      gt { maxSequence_ := 7, key_ := [2] } { maxSequence_ := 7, key_ := [1] } = true) := by
  refine ⟨?_, ?_, by decide⟩
  · simp [gt, lt, maxSequence]
  · simp [gt, lt]

end NeighboursSetElemet

end cs

namespace RunAfterEx

/-- `CancelAfter(n)` on a positive launch count never raises it. -/
theorem CancelAfter_le_of_pos (s : RunAfterEx) (n : Int) (h : s._remains > 0) :
    (CancelAfter s n)._remains ≤ s._remains := by
  unfold CancelAfter
  split
  · exact Int.le_refl _
  · rename_i hc
    simp only
    by_contra hgt
    exact hc (Or.inr ⟨h, by omega⟩)

/-- C23 at the failing input: after `Cancel()` the launch count is 0, which the guard
`_remains > 0 && _remains <= count_calls` of `CancelAfter` lets through: `CancelAfter(5)`
raises the count from 0 to 5 (and so does `CancelAfter(n)` for every `n >= 0`). -/
theorem cancelAfter_revives_cancelled (s : RunAfterEx) (n : Nat) :
    (Cancel s)._remains = 0 ∧
    (CancelAfter (Cancel s) 5)._remains = 5 ∧
    (CancelAfter (Cancel s) (n : Int))._remains = (n : Int) := by
  refine ⟨rfl, by simp [CancelAfter, Cancel], ?_⟩
  have hn : ¬ ((n : Int) < 0) := by omega
  simp [CancelAfter, Cancel, hn]

end RunAfterEx

/-! ## Order independence of BitHeap -/

namespace cs.BitHeap

theorem testBit_bitsetShl_high (BitSize bits shift i : Nat) (hi : BitSize ≤ i) :
    (bitsetShl BitSize bits shift).testBit i = false := by
  have hlt : ¬ i < BitSize := by omega
  unfold bitsetShl
  split
  · simp [Nat.testBit_mod_two_pow, hlt]
  · simp

/-- No bit at or above `BitSize` is ever set by `push`. -/
theorem bits_high_push (BitSize : Nat) (h : BitHeap) (v : Nat)
    (hh : ∀ i, BitSize ≤ i → h.bits_.testBit i = false) :
    ∀ i, BitSize ≤ i → (push BitSize h v).bits_.testBit i = false := by
  intro i hi
  unfold push
  split
  · exact hh i hi
  · split
    · simp only
      split
      · rename_i hind
        rw [testBit_bitsetSet, testBit_bitsetShl_high _ _ _ _ hi]
        have : ¬ v - h.greatest_ - 1 = i := by omega
        simp [this]
      · exact testBit_bitsetShl_high _ _ _ _ hi
    · split
      · simp only
        split
        · rename_i hind
          simp only
          rw [testBit_bitsetSet, hh i hi]
          have : ¬ h.greatest_ - v - 1 = i := by omega
          simp [this]
        · exact hh i hi
      · exact hh i hi

theorem bits_high_foldl (BitSize : Nat) (l : List Nat) :
    ∀ h : BitHeap, (∀ i, BitSize ≤ i → h.bits_.testBit i = false) →
      ∀ i, BitSize ≤ i → (l.foldl (push BitSize) h).bits_.testBit i = false := by
  induction l with
  | nil => intro h hh; simpa using hh
  | cons a l ih =>
    intro h hh
    simpa using ih (push BitSize h a) (bits_high_push BitSize h a hh)

theorem bits_high_pushAll (tbits BitSize : Nat) (vals : List Nat) :
    ∀ i, BitSize ≤ i → (pushAll tbits BitSize vals).bits_.testBit i = false :=
  bits_high_foldl BitSize vals (new tbits) (fun i _ => by simp [new])

/-- Two non-empty sequences of pushes with the same values, in any order and with any
repetitions, leave the same heap. -/
theorem pushAll_congr (tbits BitSize : Nat) (l₁ l₂ : List Nat) (hne : l₁ ≠ [])
    (hmem : ∀ x, x ∈ l₁ ↔ x ∈ l₂) :
    pushAll tbits BitSize l₁ = pushAll tbits BitSize l₂ := by
  have hne₂ : l₂ ≠ [] := by
    obtain ⟨x, hx⟩ := List.exists_mem_of_ne_nil l₁ hne
    exact List.ne_nil_of_mem ((hmem x).1 hx)
  have h₁ := tracks_pushAll tbits BitSize l₁ hne
  have h₂ := tracks_pushAll tbits BitSize l₂ hne₂
  have hg : (pushAll tbits BitSize l₁).greatest_ = (pushAll tbits BitSize l₂).greatest_ := by
    have a := h₂.2.2.1 _ ((hmem _).1 h₁.2.1)
    have b := h₁.2.2.1 _ ((hmem _).2 h₂.2.1)
    omega
  have hb : (pushAll tbits BitSize l₁).bits_ = (pushAll tbits BitSize l₂).bits_ := by
    apply Nat.eq_of_testBit_eq
    intro i
    by_cases hi : i < BitSize
    · rw [Bool.eq_iff_iff, h₁.2.2.2 i hi, h₂.2.2.2 i hi, hg]
      constructor
      · rintro ⟨u, hu, hui⟩
        exact ⟨u, (hmem u).1 hu, hui⟩
      · rintro ⟨u, hu, hui⟩
        exact ⟨u, (hmem u).2 hu, hui⟩
    · rw [bits_high_pushAll tbits BitSize l₁ i (by omega),
        bits_high_pushAll tbits BitSize l₂ i (by omega)]
  have hs : (pushAll tbits BitSize l₁).isValueSet_ = (pushAll tbits BitSize l₂).isValueSet_ := by
    rw [h₁.1, h₂.1]
  revert hg hb hs
  cases pushAll tbits BitSize l₁
  cases pushAll tbits BitSize l₂
  simp only [BitHeap.mk.injEq]
  intro a b c
  exact ⟨a, c, b⟩

/-- C21: two sequences of values that are permutations of each other, pushed into two new
heaps, give the same `minMaxRange()`, the same `count()` and the same `contains(v)` for
every `v` (the two heaps are equal); and pushing again a value that was already pushed
leaves the heap as it is. -/
theorem pushAll_perm (tbits BitSize : Nat) (l₁ l₂ : List Nat) (hp : l₁.Perm l₂) :
    pushAll tbits BitSize l₁ = pushAll tbits BitSize l₂ ∧
    minMaxRange tbits BitSize (pushAll tbits BitSize l₁)
      = minMaxRange tbits BitSize (pushAll tbits BitSize l₂) ∧
    count BitSize (pushAll tbits BitSize l₁) = count BitSize (pushAll tbits BitSize l₂) ∧
    (∀ v, contains BitSize (pushAll tbits BitSize l₁) v
      = contains BitSize (pushAll tbits BitSize l₂) v) ∧
    (∀ v ∈ l₁, push BitSize (pushAll tbits BitSize l₁) v = pushAll tbits BitSize l₁) := by
  have heq : pushAll tbits BitSize l₁ = pushAll tbits BitSize l₂ := by
    by_cases hne : l₁ = []
    · subst hne
      rw [hp.nil_eq]
    · exact pushAll_congr tbits BitSize l₁ l₂ hne (fun x => hp.mem_iff)
  refine ⟨heq, by rw [heq], by rw [heq], fun v => by rw [heq], ?_⟩
  intro v hv
  have happ : push BitSize (pushAll tbits BitSize l₁) v = pushAll tbits BitSize (l₁ ++ [v]) := by
    simp [pushAll, List.foldl_append]
  rw [happ]
  apply pushAll_congr tbits BitSize (l₁ ++ [v]) l₁ (by simp)
  intro x
  constructor
  · intro hx
    rcases List.mem_append.1 hx with hx | hx
    · exact hx
    · simp at hx; exact hx ▸ hv
  · exact fun hx => List.mem_append_left _ hx

/-- Witness of `pushAll_perm`: the pushes 100, 50, 99, 40 and the same values in the order
40, 99, 50, 100 on a `BitHeap<uint64_t, 64>`. -/
theorem pushAll_perm_witness :
    List.Perm [100, 50, 99, 40] [40, 99, 50, 100] ∧
    pushAll 64 64 [100, 50, 99, 40] = pushAll 64 64 [40, 99, 50, 100] ∧
    count 64 (pushAll 64 64 [100, 50, 99, 40]) = count 64 (pushAll 64 64 [40, 99, 50, 100]) :=
  ⟨by decide, (pushAll_perm 64 64 [100, 50, 99, 40] [40, 99, 50, 100] (by decide)).1,
    (pushAll_perm 64 64 [100, 50, 99, 40] [40, 99, 50, 100] (by decide)).2.2.1⟩

end cs.BitHeap

/-! ## Lemmas on std::hash<cs::TransactionsPacketHash> -/

namespace cs.TransactionsPacketHash

/-- Multiplication by a number coprime to `2 ^ 64` is injective on 64-bit words. -/
theorem mul_mod_inj (c x y : Nat) (hc : Nat.gcd (2 ^ 64) c = 1) (hx : x < 2 ^ 64)
    (hy : y < 2 ^ 64) (h : (x * c) % 2 ^ 64 = (y * c) % 2 ^ 64) : x = y :=
  Nat.ModEq.eq_of_lt_of_lt (Nat.ModEq.cancel_right_of_coprime hc h) hx hy

theorem hashStep_lt (hash byte : Nat) : hashStep hash byte < 2 ^ 64 :=
  Nat.mod_lt _ (Nat.two_pow_pos 64)

theorem byte_lt_word {b : Nat} (hb : b < 256) : b < 2 ^ 64 :=
  Nat.lt_trans hb (by decide)

/-- For a fixed byte the loop step is injective in the hash. -/
theorem hashStep_inj_hash (b h h' : Nat) (hb : b < 256) (hh : h < 2 ^ 64) (hh' : h' < 2 ^ 64)
    (heq : hashStep h b = hashStep h' b) : h = h' := by
  have hx := mul_mod_inj 16777619 (h ^^^ b) (h' ^^^ b) (by decide)
    (Nat.xor_lt_two_pow hh (byte_lt_word hb)) (Nat.xor_lt_two_pow hh' (byte_lt_word hb)) heq
  exact Nat.xor_left_injective hx

/-- For a fixed hash the loop step is injective in the byte. -/
theorem hashStep_inj_byte (h a b : Nat) (hh : h < 2 ^ 64) (ha : a < 256) (hb : b < 256)
    (heq : hashStep h a = hashStep h b) : a = b := by
  have hx := mul_mod_inj 16777619 (h ^^^ a) (h ^^^ b) (by decide)
    (Nat.xor_lt_two_pow hh (byte_lt_word ha)) (Nat.xor_lt_two_pow hh (byte_lt_word hb)) heq
  exact Nat.xor_right_injective hx

theorem foldl_hashStep_lt (data : List Nat) :
    ∀ h, h < 2 ^ 64 → data.foldl hashStep h < 2 ^ 64 := by
  induction data with
  | nil => intro h hh; simpa using hh
  | cons a t ih => intro h _; simpa using ih _ (hashStep_lt h a)

/-- The loop over the same bytes is injective in the hash it starts from. -/
theorem foldl_hashStep_inj (data : List Nat) (hd : ∀ x ∈ data, x < 256) :
    ∀ h h', h < 2 ^ 64 → h' < 2 ^ 64 →
      data.foldl hashStep h = data.foldl hashStep h' → h = h' := by
  induction data with
  | nil => intro h h' _ _ heq; simpa using heq
  | cons a t ih =>
    intro h h' hh hh' heq
    have hstep := ih (fun x hx => hd x (List.mem_cons_of_mem _ hx)) _ _
      (hashStep_lt h a) (hashStep_lt h' a) (by simpa using heq)
    exact hashStep_inj_hash a h h' (hd a (List.mem_cons_self _ _)) hh hh' hstep

theorem addShl_eq_mul (k hash : Nat) : addShl k hash = (hash * (2 ^ k + 1)) % 2 ^ 64 := by
  unfold addShl
  rw [Nat.add_mod_mod, Nat.shiftLeft_eq, Nat.mul_add, Nat.mul_one, Nat.add_comm]

theorem addShl_lt (k hash : Nat) : addShl k hash < 2 ^ 64 :=
  Nat.mod_lt _ (Nat.two_pow_pos 64)

theorem addShl_inj (k x y : Nat) (hc : Nat.gcd (2 ^ 64) (2 ^ k + 1) = 1) (hx : x < 2 ^ 64)
    (hy : y < 2 ^ 64) (h : addShl k x = addShl k y) : x = y := by
  rw [addShl_eq_mul, addShl_eq_mul] at h
  exact mul_mod_inj _ x y hc hx hy h

theorem xorShr_lt (k hash : Nat) (h : hash < 2 ^ 64) : xorShr k hash < 2 ^ 64 := by
  unfold xorShr
  apply Nat.xor_lt_two_pow h
  rw [Nat.shiftRight_eq_div_pow]
  exact Nat.lt_of_le_of_lt (Nat.div_le_self _ _) h

/-- The statement `hash ^= hash >> k` with `k > 0` is injective: the bits of the argument
are recovered from the top down. -/
theorem xorShr_inj (k x y : Nat) (hk : 0 < k) (h : xorShr k x = xorShr k y) : x = y := by
  have hbit : ∀ i, xor (x.testBit i) (x.testBit (k + i))
      = xor (y.testBit i) (y.testBit (k + i)) := by
    intro i
    have := congrArg (fun n => n.testBit i) h
    simpa [xorShr, Nat.testBit_xor, Nat.testBit_shiftRight] using this
  have hxN : x < 2 ^ (x + y) :=
    Nat.lt_of_lt_of_le (Nat.lt_two_pow x) (Nat.pow_le_pow_right (by decide) (by omega))
  have hyN : y < 2 ^ (x + y) :=
    Nat.lt_of_lt_of_le (Nat.lt_two_pow y) (Nat.pow_le_pow_right (by decide) (by omega))
  have key : ∀ m i, x + y ≤ i + m → x.testBit i = y.testBit i := by
    intro m
    induction m with
    | zero =>
      intro i hi
      have hle : 2 ^ (x + y) ≤ 2 ^ i := Nat.pow_le_pow_right (by decide) (by omega)
      rw [Nat.testBit_lt_two_pow (Nat.lt_of_lt_of_le hxN hle),
        Nat.testBit_lt_two_pow (Nat.lt_of_lt_of_le hyN hle)]
    | succ m ih =>
      intro i hi
      have e := ih (k + i) (by omega)
      have hb := hbit i
      rw [e] at hb
      revert hb
      cases x.testBit i <;> cases y.testBit i <;> cases y.testBit (k + i) <;> simp
  exact Nat.eq_of_testBit_eq (fun i => key (x + y) i (by omega))

theorem hashFinal_lt (hash : Nat) : hashFinal hash < 2 ^ 64 := addShl_lt _ _

/-- The five final statements together are injective on 64-bit words. -/
theorem hashFinal_inj (x y : Nat) (hx : x < 2 ^ 64) (hy : y < 2 ^ 64)
    (h : hashFinal x = hashFinal y) : x = y := by
  unfold hashFinal at h
  have h5 := addShl_inj 5 _ _ (by decide)
    (xorShr_lt 17 _ (addShl_lt 3 _)) (xorShr_lt 17 _ (addShl_lt 3 _)) h
  have h4 := xorShr_inj 17 _ _ (by decide) h5
  have h3 := addShl_inj 3 _ _ (by decide)
    (xorShr_lt 7 _ (addShl_lt 13 _)) (xorShr_lt 7 _ (addShl_lt 13 _)) h4
  have h2 := xorShr_inj 7 _ _ (by decide) h3
  exact addShl_inj 13 x y (by decide) hx hy h2

/-- Two byte strings that differ in the byte after a common prefix and share the rest have
different hash values. -/
theorem stdHash_ne_of_split (pre post : List Nat) (a b : Nat) (ha : a < 256) (hb : b < 256)
    (hpost : ∀ x ∈ post, x < 256) (hab : a ≠ b) :
    stdHash (pre ++ a :: post) ≠ stdHash (pre ++ b :: post) := by
  intro heq
  unfold stdHash at heq
  have h0 : pre.foldl hashStep 2166136261 < 2 ^ 64 := foldl_hashStep_lt pre _ (by decide)
  have h1 := hashFinal_inj _ _ (foldl_hashStep_lt _ _ (by decide))
    (foldl_hashStep_lt _ _ (by decide)) heq
  rw [List.foldl_append, List.foldl_append, List.foldl_cons, List.foldl_cons] at h1
  have h2 := foldl_hashStep_inj post hpost _ _ (hashStep_lt _ a) (hashStep_lt _ b) h1
  exact hab (hashStep_inj_byte _ a b h0 ha hb h2)

end cs.TransactionsPacketHash

namespace cs.TransactionsPacketHash

/-! ## Claims on std::hash<cs::TransactionsPacketHash> -/

/-- C25: with `size_t` arithmetic modulo `2 ^ 64`, two binary representations (lists of
bytes) of equal length that differ in exactly one position `i` have different hash values;
the loop step is injective in the hash for a fixed byte and the final statements are
injective, both on 64-bit words and with 64-bit results (so they are bijections there). -/
theorem stdHash_separates (d₁ d₂ : List Nat) (i : Nat)
    (hb₁ : ∀ x ∈ d₁, x < 256) (hb₂ : ∀ x ∈ d₂, x < 256)
    (hlen : d₁.length = d₂.length) (hi : i < d₁.length)
    (hne : d₁[i]? ≠ d₂[i]?)
    (hsame : ∀ j, j < d₁.length → j ≠ i → d₁[j]? = d₂[j]?) :
    stdHash d₁ ≠ stdHash d₂ ∧
    (∀ b h h', b < 256 → h < 2 ^ 64 → h' < 2 ^ 64 →
      (hashStep h b < 2 ^ 64 ∧ (hashStep h b = hashStep h' b → h = h'))) ∧
    (∀ h h', h < 2 ^ 64 → h' < 2 ^ 64 →
      (hashFinal h < 2 ^ 64 ∧ (hashFinal h = hashFinal h' → h = h'))) := by
  refine ⟨?_, fun b h h' hb hh hh' => ⟨hashStep_lt h b, hashStep_inj_hash b h h' hb hh hh'⟩,
    fun h h' hh hh' => ⟨hashFinal_lt h, hashFinal_inj h h' hh hh'⟩⟩
  have hi₂ : i < d₂.length := hlen ▸ hi
  have hall : ∀ j, j ≠ i → d₁[j]? = d₂[j]? := by
    intro j hj
    by_cases hjl : j < d₁.length
    · exact hsame j hjl hj
    · rw [List.getElem?_eq_none (by omega), List.getElem?_eq_none (by omega)]
  have htake : d₁.take i = d₂.take i := by
    apply List.ext_getElem?
    intro j
    rw [List.getElem?_take, List.getElem?_take]
    split
    · exact hall j (by omega)
    · rfl
  have hdrop : d₁.drop (i + 1) = d₂.drop (i + 1) := by
    apply List.ext_getElem?
    intro j
    rw [List.getElem?_drop, List.getElem?_drop]
    exact hall _ (by omega)
  have hd₁ : d₁ = d₁.take i ++ d₁[i] :: d₁.drop (i + 1) := by
    rw [← List.drop_eq_getElem_cons hi, List.take_append_drop]
  have hd₂ : d₂ = d₁.take i ++ d₂[i] :: d₁.drop (i + 1) := by
    rw [htake, hdrop, ← List.drop_eq_getElem_cons hi₂, List.take_append_drop]
  have hab : d₁[i] ≠ d₂[i] := by
    intro h
    apply hne
    rw [List.getElem?_eq_getElem hi, List.getElem?_eq_getElem hi₂, h]
  rw [hd₁, hd₂]
  exact stdHash_ne_of_split _ _ _ _ (hb₁ _ (List.getElem_mem hi)) (hb₂ _ (List.getElem_mem hi₂))
    (fun x hx => hb₁ x (List.mem_of_mem_drop hx)) hab

/-- Witness of `stdHash_separates`: the byte strings 1, 2, 3 and 1, 9, 3 differ in the
position 1 only, and their hash values differ. -/
theorem stdHash_separates_witness :
    (([1, 2, 3] : List Nat).length = ([1, 9, 3] : List Nat).length ∧
      ([1, 2, 3] : List Nat)[1]? ≠ ([1, 9, 3] : List Nat)[1]?) ∧
    stdHash [1, 2, 3] ≠ stdHash [1, 9, 3] :=
  ⟨by decide,
    (stdHash_separates [1, 2, 3] [1, 9, 3] 1 (by decide) (by decide) (by decide) (by decide)
      (by decide) (by decide)).1⟩

end cs.TransactionsPacketHash
